import Mathlib

/-!
# Buffer pools of `server/server.go`

A shallow embedding of the Go package `server`: the three request handlers
(`BasicHandler`, `ObjectPoolHandler`, `BoundedPoolHandler`) and the bounded
pool they compare against (`SynchronizedBuffer`, `BufferPool`,
`NewBufferPool`, `Get`, `Put`).

Modelling conventions.
* `int32` values are `Int`s kept in `[-2^31, 2^31)` by `wrapInt32`; `uint64`
  values are `Nat`s.  Go's `%` on signed integers truncates toward zero, which
  is `Int.tmod`.
* A `*bytes.Buffer` is modelled by its unread contents.  No handler ever reads
  from a buffer, so the read offset stays `0`; capacity is not modelled.
* A `sync.Mutex` is one bit.  `Lock` on a locked mutex does not return, which a
  sequential run reports as `blocked`; `Unlock` on an unlocked mutex is the
  runtime's fatal error.
* A `*SynchronizedBuffer` pointing into `r.buffers` is the index of that slot.
* A run-time panic is reported as a value together with the pool state it
  leaves behind.
* The request body is seen through `ReadFrom`: the bytes it delivers and the
  way the read ends (a returned error, possibly nil, or a panic).
* Allocation always succeeds; running out of memory is not modelled.
* Concurrent callers are an interleaving of atomic steps over a shared pool
  (`World.step`): the increment-and-remainder of `Get`, the `Lock` of `Get`,
  and the `Unlock` of `Put`.
-/

namespace Server

/-! ## Machine integers -/

/-- Two's complement reading of the low 32 bits of an integer: the low 32
bits as a natural number `r`, which stands for `r` below `2^31` and for
`r - 2^32` from `2^31` on. -/
def wrapInt32 (x : Int) : Int :=
  let r := (x % 4294967296).toNat
  if r < 2147483648 then (r : Int) else (r : Int) - 4294967296

/-- Go conversion `int32(n)` of an unsigned value. -/
def int32 (n : Nat) : Int := wrapInt32 (n : Int)

/-! ## Bytes, readers, response writers -/

/-- One octet. -/
abbrev Byte := Fin 256

/-- Go `make([]byte, n)`: `n` zero bytes. -/
def make (n : Nat) : List Byte := List.replicate n 0

/-- Error values a read can report: `io.EOF`, or any other error, given by the
text `Error()` returns for it. -/
inductive ReadError where
  | EOF
  | other (text : List Byte)
deriving DecidableEq, Repr

/-- Go `err.Error()`, as bytes. -/
def ReadError.Error : ReadError → List Byte
  | .EOF => [69, 79, 70]
  | .other text => text

/-- How a call of `ReadFrom` ends: it returns an error value (possibly nil), or
it panics. -/
inductive ReadResult where
  | returned (err : Option ReadError)
  | panicked
deriving DecidableEq, Repr

/-- The request body seen through `(*bytes.Buffer).ReadFrom`: the bytes it
delivers before the read ends, and how the read ends.  The library itself turns
`io.EOF` into a nil error; the model also admits a returned `io.EOF`, which the
handlers test for explicitly. -/
structure Reader where
  data : List Byte
  result : ReadResult
deriving DecidableEq, Repr

/-- The part of `*http.Request` the handlers use. -/
structure Request where
  Body : Reader
deriving DecidableEq, Repr

/-- One call made on an `http.ResponseWriter`. -/
inductive ResponseCall where
  | WriteHeader (statusCode : Nat)
  | Write (p : List Byte)
deriving DecidableEq, Repr

/-- An `http.ResponseWriter`, as the sequence of calls made on it so far. -/
abbrev ResponseWriter := List ResponseCall

/-- Go `http.StatusInternalServerError`. -/
def StatusInternalServerError : Nat := 500

/-! ## `bytes.Buffer` -/

/-- A `bytes.Buffer`, as its unread contents. -/
structure Buffer where
  buf : List Byte
deriving DecidableEq, Repr

/-- Go `bytes.NewBuffer(buf)`: `buf` becomes the initial contents. -/
def NewBuffer (buf : List Byte) : Buffer := ⟨buf⟩

/-- Go `(*Buffer).Len`. -/
def Buffer.Len (b : Buffer) : Nat := b.buf.length

/-- Go `(*Buffer).Reset`: the buffer becomes empty. -/
def Buffer.Reset (_b : Buffer) : Buffer := ⟨[]⟩

/-- Go `(*Buffer).Write`: appends `p`, growing the buffer as needed. -/
def Buffer.Write (b : Buffer) (p : List Byte) : Buffer := ⟨b.buf ++ p⟩

/-- Go `(*Buffer).ReadFrom`: appends everything the reader delivers, growing
the buffer as needed, and ends the way the reader ends. -/
def Buffer.ReadFrom (b : Buffer) (r : Reader) : Buffer × ReadResult :=
  (⟨b.buf ++ r.data⟩, r.result)

/-! ## Faults and exits -/

/-- Run-time faults of the package. -/
inductive Fault where
  | divideByZero
  | indexOutOfRange
  | nilDereference
  | unlockOfUnlockedMutex
  | readPanic
deriving DecidableEq, Repr

/-- How a call ends: it returns, it panics, or it never returns because it
waits for the lock of slot `idx`. -/
inductive Exit where
  | returned
  | panicked (f : Fault)
  | blocked (idx : Nat)
deriving DecidableEq, Repr

/-! ## `BasicHandler` and `ObjectPoolHandler` -/

/-- The constant `bufferSize`. -/
def bufferSize : Nat := 2048

/-- Go `BasicHandler`. -/
def BasicHandler (w : ResponseWriter) (req : Request) : ResponseWriter × Exit :=
  let buffer := NewBuffer (make bufferSize)
  match buffer.ReadFrom req.Body with
  | (_, .panicked) => (w, .panicked .readPanic)
  | (_, .returned none) => (w, .returned)
  | (_, .returned (some err)) =>
    if err ≠ ReadError.EOF then
      (w ++ [.WriteHeader StatusInternalServerError, .Write err.Error], .returned)
    else (w, .returned)

/-- A `sync.Pool` of buffers, as the list of idle items it currently keeps.
(The library may also drop idle items; the model keeps them all and hands out
the most recently returned one.) -/
structure SyncPool where
  idle : List Buffer
deriving DecidableEq, Repr

/-- The `New` function of the package variable `p`. -/
def SyncPool.New : Buffer := NewBuffer (make bufferSize)

/-- Go `p.Get()`: an idle item when there is one, a new buffer otherwise. -/
def SyncPool.Get (p : SyncPool) : Buffer × SyncPool :=
  match p.idle with
  | [] => (SyncPool.New, p)
  | b :: rest => (b, ⟨rest⟩)

/-- Go `p.Put(x)`. -/
def SyncPool.Put (p : SyncPool) (x : Buffer) : SyncPool := ⟨x :: p.idle⟩

/-- Go `ObjectPoolHandler`.  The deferred function (reset, then put back) runs
on every way out of the body, a panic of `ReadFrom` included. -/
def ObjectPoolHandler (p : SyncPool) (w : ResponseWriter) (req : Request) :
    SyncPool × ResponseWriter × Exit :=
  match p.Get with
  | (buffer, p1) =>
    match buffer.ReadFrom req.Body with
    | (buffer1, .panicked) => (p1.Put buffer1.Reset, w, .panicked .readPanic)
    | (buffer1, .returned none) => (p1.Put buffer1.Reset, w, .returned)
    | (buffer1, .returned (some err)) =>
      if err ≠ ReadError.EOF then
        (p1.Put buffer1.Reset,
          w ++ [.WriteHeader StatusInternalServerError, .Write err.Error], .returned)
      else (p1.Put buffer1.Reset, w, .returned)

/-! ## `SynchronizedBuffer` -/

/-- Go `SynchronizedBuffer`.  `lock` is `true` while the mutex is held. -/
structure SynchronizedBuffer where
  buffer : Buffer
  lock : Bool
  isUsed : Bool
deriving DecidableEq, Repr

/-- Go `(*SynchronizedBuffer).Acquire`: `none` when `Lock` does not return
because the mutex is held. -/
def SynchronizedBuffer.Acquire (b : SynchronizedBuffer) : Option SynchronizedBuffer :=
  if b.lock then none else some { b with lock := true }

/-- Go `(*SynchronizedBuffer).Release`: `none` when `Unlock` meets an unlocked
mutex, which is fatal. -/
def SynchronizedBuffer.Release (b : SynchronizedBuffer) : Option SynchronizedBuffer :=
  if b.lock then some { b with lock := false } else none

/-! ## `BufferPool` -/

/-- Go `BufferPool`. -/
structure BufferPool where
  size : Nat
  length : Nat
  nextAllocatedIndex : Int
  buffers : List SynchronizedBuffer
deriving DecidableEq, Repr

/-- The zero value of `SynchronizedBuffer` that `make` fills a fresh slice
with.  Its `buffer` pointer is nil in Go; here it is the empty buffer, and
`NewBufferPool` overwrites it in every slot before the pool is returned. -/
def SynchronizedBuffer.zero : SynchronizedBuffer := ⟨⟨[]⟩, false, false⟩

/-- The loop body of `NewBufferPool`: `buffers[i].buffer = bytes.NewBuffer(...)`. -/
def NewBufferPool.assign (singleBufferSize : Nat) (buffers : List SynchronizedBuffer)
    (i : Nat) : List SynchronizedBuffer :=
  buffers.modify (fun b => { b with buffer := NewBuffer (make singleBufferSize) }) i

/-- Go `NewBufferPool`: the slice is made with `length` zero slots, then the
loop over `i = 0, ..., length - 1` gives each slot its buffer. -/
def NewBufferPool (singleBufferSize length : Nat) : BufferPool :=
  { size := singleBufferSize
    length := length
    nextAllocatedIndex := 0
    buffers := (List.range length).foldl (NewBufferPool.assign singleBufferSize)
      (List.replicate length SynchronizedBuffer.zero) }

/-- Result of `Get`, with the pool state it leaves. -/
inductive GetResult where
  | acquired (idx : Nat) (pool : BufferPool)
  | blocked (idx : Nat) (pool : BufferPool)
  | panicked (f : Fault) (pool : BufferPool)
deriving DecidableEq, Repr

/-- Line 87 of `Get`: `atomic.AddInt32(&r.nextAllocatedIndex, 1) % int32(r.length)`.
The counter is incremented first; the remainder then panics when the divisor
is zero. -/
def Get.selectIndex (r : BufferPool) : BufferPool × Except Fault Int :=
  let n := wrapInt32 (r.nextAllocatedIndex + 1)
  let r1 := { r with nextAllocatedIndex := n }
  if int32 r.length = 0 then (r1, .error .divideByZero)
  else (r1, .ok (Int.tmod n (int32 r.length)))

/-- Lines 88 and 89 of `Get`: index the slice (bounds checked), lock the slot,
return a pointer to it. -/
def Get.acquireAt (r : BufferPool) (currIndex : Int) : GetResult :=
  if currIndex < 0 then .panicked .indexOutOfRange r
  else
    match r.buffers[currIndex.toNat]? with
    | none => .panicked .indexOutOfRange r
    | some b =>
      match b.Acquire with
      | none => .blocked currIndex.toNat r
      | some b1 => .acquired currIndex.toNat { r with buffers := r.buffers.set currIndex.toNat b1 }

/-- Go `(*BufferPool).Get`. -/
def Get (r : BufferPool) : GetResult :=
  match Get.selectIndex r with
  | (r1, .error f) => .panicked f r1
  | (r1, .ok currIndex) => Get.acquireAt r1 currIndex

/-- Go `(*BufferPool).Put`.  The handle `b` is a slot index; an index outside
the pool stands for a pointer that refers to no slot. -/
def Put (r : BufferPool) (b : Nat) : Except Fault BufferPool :=
  match r.buffers[b]? with
  | none => .error .nilDereference
  | some s =>
    match s.Release with
    | none => .error .unlockOfUnlockedMutex
    | some s1 => .ok { r with buffers := r.buffers.set b s1 }

/-! ## `BoundedPoolHandler` -/

/-- Line 108, `buffer.ReadFrom(req.Body)`, where `buffer` aliases the buffer of
slot `i`. -/
def BufferPool.readFromAt (bp : BufferPool) (i : Nat) (body : Reader) : BufferPool × ReadResult :=
  match bp.buffers[i]? with
  | none => (bp, .panicked)
  | some s =>
    let res := s.buffer.ReadFrom body
    ({ bp with buffers := bp.buffers.set i { s with buffer := res.1 } }, res.2)

/-- Line 105, `buffer.Reset()`, where `buffer` aliases the buffer of slot `i`. -/
def BufferPool.resetAt (bp : BufferPool) (i : Nat) : BufferPool :=
  { bp with buffers := bp.buffers.modify (fun s => { s with buffer := s.buffer.Reset }) i }

/-- What a call of `BoundedPoolHandler` leaves behind. -/
structure HandlerResult where
  pool : BufferPool
  w : ResponseWriter
  exit : Exit
deriving DecidableEq, Repr

/-- The deferred function of `BoundedPoolHandler` (lines 104 to 107), run with
the response and exit reached by the body. -/
def BoundedPoolHandler.deferred (bp : BufferPool) (i : Nat) (w : ResponseWriter) (exit : Exit) :
    HandlerResult :=
  let bp1 := bp.resetAt i
  match Put bp1 i with
  | .ok bp2 => ⟨bp2, w, exit⟩
  | .error f => ⟨bp1, w, .panicked f⟩

/-- Go `BoundedPoolHandler`, on the package pool `bp`.  When `Get` panics or
does not return, the `defer` statement has not been reached. -/
def BoundedPoolHandler (bp : BufferPool) (w : ResponseWriter) (req : Request) : HandlerResult :=
  match Get bp with
  | .panicked f bp1 => ⟨bp1, w, .panicked f⟩
  | .blocked i bp1 => ⟨bp1, w, .blocked i⟩
  | .acquired i bp1 =>
    match bp1.readFromAt i req.Body with
    | (bp2, .panicked) => BoundedPoolHandler.deferred bp2 i w (.panicked .readPanic)
    | (bp2, .returned none) => BoundedPoolHandler.deferred bp2 i w .returned
    | (bp2, .returned (some err)) =>
      if err ≠ ReadError.EOF then
        BoundedPoolHandler.deferred bp2 i
          (w ++ [.WriteHeader StatusInternalServerError, .Write err.Error]) .returned
      else BoundedPoolHandler.deferred bp2 i w .returned

/-- The package variable `bp`. -/
def bp : BufferPool := NewBufferPool bufferSize 10

/-! ## Sequential drivers and observations -/

/-- Every mutex of the pool is unlocked. -/
def BufferPool.allUnlocked (r : BufferPool) : Prop :=
  ∀ s ∈ r.buffers, s.lock = false

instance (r : BufferPool) : Decidable r.allUnlocked :=
  inferInstanceAs (Decidable (∀ s ∈ r.buffers, s.lock = false))

/-- Number of bytes held by all buffers of the pool together. -/
def BufferPool.totalBytes (r : BufferPool) : Nat :=
  (r.buffers.map (fun s => s.buffer.Len)).sum

/-- What a sequential run of `Get`/`Put` cycles leaves behind: the pool, the
slot indices the `Get`s returned (in order), and how the run ended. -/
structure Run where
  pool : BufferPool
  selected : List Nat
  exit : Exit
deriving DecidableEq, Repr

/-- A single caller performing `n` times `b := r.Get(); r.Put(b)`.  The run
stops at the first call that panics or does not return. -/
def getPutCycles : Nat → BufferPool → Run
  | 0, r => ⟨r, [], .returned⟩
  | n + 1, r =>
    match Get r with
    | .panicked f r1 => ⟨r1, [], .panicked f⟩
    | .blocked i r1 => ⟨r1, [], .blocked i⟩
    | .acquired i r1 =>
      match Put r1 i with
      | .error f => ⟨r1, [i], .panicked f⟩
      | .ok r2 =>
        let rest := getPutCycles n r2
        ⟨rest.pool, i :: rest.selected, rest.exit⟩

/-- Requests served one after the other by `BoundedPoolHandler`, each with a
response writer of its own; the pool is threaded through.  The result lists
what every call left behind, in order. -/
def serveAll : BufferPool → List Request → List HandlerResult
  | _, [] => []
  | r, req :: rest =>
    let res := BoundedPoolHandler r [] req
    res :: serveAll res.pool rest

/-- The caller of the leak test: lease a slot, write `pattern` into its
buffer, reset the buffer, give the slot back, lease again.  Returns the first
handle and the result of the second `Get`. -/
def leaseWriteResetPutLease (r : BufferPool) (pattern : List Byte) : Option (Nat × GetResult) :=
  match Get r with
  | .acquired i r1 =>
    match r1.buffers[i]? with
    | none => none
    | some s =>
      let r2 := { r1 with buffers := r1.buffers.set i { s with buffer := s.buffer.Write pattern } }
      let r3 := r2.resetAt i
      match Put r3 i with
      | .ok r4 => some (i, Get r4)
      | .error _ => none
  | _ => none

/-! ## Concurrent callers -/

/-- Where a caller stands in its `Get` ... `Put` protocol. -/
inductive Caller where
  | idle
  | selected (currIndex : Int)
  | holding (idx : Nat)
  | dead (f : Fault)
deriving DecidableEq, Repr

/-- The shared pool and the callers working on it. -/
structure World where
  pool : BufferPool
  callers : List Caller
deriving DecidableEq, Repr

/-- One atomic step of caller `t`.  An idle caller enters `Get` and performs
line 87 (the atomic increment and the remainder).  A caller that has selected
an index performs line 88: when the mutex is held it makes no progress.  A
caller holding a slot calls `Put` with the handle `Get` gave it. -/
def World.step (σ : World) (t : Nat) : World :=
  match σ.callers[t]? with
  | none => σ
  | some .idle =>
    match Get.selectIndex σ.pool with
    | (r1, .error f) => ⟨r1, σ.callers.set t (.dead f)⟩
    | (r1, .ok i) => ⟨r1, σ.callers.set t (.selected i)⟩
  | some (.selected i) =>
    match Get.acquireAt σ.pool i with
    | .acquired idx r1 => ⟨r1, σ.callers.set t (.holding idx)⟩
    | .blocked _ _ => σ
    | .panicked f r1 => ⟨r1, σ.callers.set t (.dead f)⟩
  | some (.holding idx) =>
    match Put σ.pool idx with
    | .ok r1 => ⟨r1, σ.callers.set t .idle⟩
    | .error f => ⟨σ.pool, σ.callers.set t (.dead f)⟩
  | some (.dead _) => σ

/-- The world after the callers have taken steps in the order `sched`. -/
def World.run (σ : World) (sched : List Nat) : World :=
  sched.foldl World.step σ

/-- All callers are outside `Get` and `Put`, and `n` of them exist. -/
def World.start (r : BufferPool) (n : Nat) : World :=
  ⟨r, List.replicate n .idle⟩

/-! ## Notions used in the statements -/

/-- The slot `NewBufferPool` builds at every index. -/
def freshSlot (singleBufferSize : Nat) : SynchronizedBuffer :=
  ⟨NewBuffer (make singleBufferSize), false, false⟩

/-- The buffers of the slots, in slot order, without the lock bits. -/
def BufferPool.contents (r : BufferPool) : List Buffer :=
  r.buffers.map (fun s => s.buffer)

/-- Pool `p` has the shape of pool `r`: the same configured size and slot
count, the same number of slots, and the same contents in every buffer. -/
def BufferPool.sameShape (r p : BufferPool) : Prop :=
  p.size = r.size ∧ p.length = r.length ∧ p.buffers.length = r.buffers.length ∧
    p.contents = r.contents

instance (r p : BufferPool) : Decidable (r.sameShape p) :=
  inferInstanceAs (Decidable (_ ∧ _ ∧ _ ∧ _))

/-- The pool `Get` leaves behind, whatever its outcome. -/
def GetResult.pool : GetResult → BufferPool
  | .acquired _ p => p
  | .blocked _ p => p
  | .panicked _ p => p

/-- The response the specification asks of every handler, in its words: status
500 with the error's text as body exactly when the drain returned a non-nil
error other than end-of-stream, and nothing otherwise. -/
def specResponse (w : ResponseWriter) (res : ReadResult) : ResponseWriter :=
  match res with
  | .returned (some err) =>
    if err = ReadError.EOF then w else w ++ [.WriteHeader 500, .Write err.Error]
  | .returned none => w
  | .panicked => w

/-- The drain returned a non-nil error other than end-of-stream. -/
def ReadResult.isFailure (res : ReadResult) : Prop :=
  ∃ err, res = .returned (some err) ∧ err ≠ ReadError.EOF

/-- How a handler body ends, given how its drain ended. -/
def ReadResult.exit : ReadResult → Exit
  | .returned _ => .returned
  | .panicked => .panicked .readPanic

/-- The request body of the benchmarks in `server_test.go`: the string
`strings.Repeat("0", 1024)`, read to its end without error. -/
def benchmarkBody : Reader := ⟨List.replicate 1024 48, .returned none⟩

/-- The invariant of the concurrent runs: a slot some caller holds is locked,
and no two callers hold the same slot. -/
def World.Inv (σ : World) : Prop :=
  (∀ t i : Nat, σ.callers[t]? = some (Caller.holding i) →
      ∃ s : SynchronizedBuffer, σ.pool.buffers[i]? = some s ∧ s.lock = true) ∧
  (∀ t u i : Nat, σ.callers[t]? = some (Caller.holding i) →
      σ.callers[u]? = some (Caller.holding i) → t = u)

/-! ## Arithmetic of the counter -/

theorem wrapInt32_of_small (x : Int) (h0 : 0 ≤ x) (h1 : x < 2147483648) : wrapInt32 x = x := by
  unfold wrapInt32
  simp only
  split <;> omega

theorem int32_of_small (n : Nat) (h : n < 2147483648) : int32 n = (n : Int) := by
  unfold int32
  exact wrapInt32_of_small _ (by omega) (by omega)

/-! ## Construction -/

theorem assign_loop (S : Nat) (k m : Nat) :
    (List.range k).foldl (NewBufferPool.assign S)
        (List.replicate (k + m) SynchronizedBuffer.zero)
      = List.replicate k (freshSlot S) ++ List.replicate m SynchronizedBuffer.zero := by
  induction k generalizing m with
  | zero => simp
  | succ k ih =>
    rw [List.range_succ, List.foldl_append]
    have h : k + 1 + m = k + (m + 1) := by omega
    rw [h, ih (m + 1)]
    simp only [List.foldl_cons, List.foldl_nil, NewBufferPool.assign]
    apply List.ext_getElem?
    intro j
    rw [List.getElem?_modify]
    rcases Nat.lt_trichotomy j k with hj | hj | hj
    · have h1 : k ≠ j := by omega
      rw [List.getElem?_append_left (by simpa using hj),
        List.getElem?_append_left (by simp; omega)]
      have h2 : j < k + 1 := by omega
      simp [List.getElem?_replicate, hj, h1, h2]
    · subst hj
      rw [List.getElem?_append_right (by simp),
        List.getElem?_append_left (by simp)]
      simp [List.getElem?_replicate, freshSlot, SynchronizedBuffer.zero]
    · have h1 : k ≠ j := by omega
      rw [List.getElem?_append_right (by simp; omega),
        List.getElem?_append_right (by simp; omega)]
      simp only [List.length_replicate, List.getElem?_replicate, h1, if_false]
      have h2 : j - (k + 1) < m ↔ j - k < m + 1 := by omega
      by_cases h3 : j - k < m + 1
      · rw [if_pos h3, if_pos (h2.mpr h3)]; rfl
      · rw [if_neg h3, if_neg (fun h => h3 (h2.mp h))]; rfl

theorem NewBufferPool_buffers (S N : Nat) :
    (NewBufferPool S N).buffers = List.replicate N (freshSlot S) := by
  have := assign_loop S N 0
  simpa [NewBufferPool] using this

/-! ## `Get` and `Put` on one slot -/

theorem set_getElem?_same {α : Type} (l : List α) (i : Nat) (a : α) (h : l[i]? = some a) :
    l.set i a = l := by
  apply List.ext_getElem?
  intro j
  by_cases hij : i = j
  · subst hij
    rw [List.getElem?_set_self', h]
    simp
  · rw [List.getElem?_set_ne hij]

theorem selectIndex_small (r : BufferPool) (c : Nat)
    (hc : r.nextAllocatedIndex = (c : Int)) (hc1 : c < 2147483647)
    (hN0 : 1 ≤ r.length) (hN : r.length ≤ 2147483647) :
    Get.selectIndex r
      = ({ r with nextAllocatedIndex := ((c + 1 : Nat) : Int) },
          .ok (((c + 1) % r.length : Nat) : Int)) := by
  have h1 : wrapInt32 (r.nextAllocatedIndex + 1) = ((c + 1 : Nat) : Int) := by
    rw [hc, wrapInt32_of_small _ (by omega) (by omega)]
    push_cast
    rfl
  have h2 : int32 r.length = (r.length : Int) := int32_of_small _ (by omega)
  have h3 : ¬ ((r.length : Int) = 0) := by omega
  unfold Get.selectIndex
  simp only [h1, h2, if_neg h3]
  rw [← Int.ofNat_tmod]

theorem acquireAt_unlocked (r : BufferPool) (i : Nat) (s : SynchronizedBuffer)
    (h : r.buffers[i]? = some s) (hl : s.lock = false) :
    Get.acquireAt r (i : Int)
      = .acquired i { r with buffers := r.buffers.set i { s with lock := true } } := by
  unfold Get.acquireAt
  have h0 : ¬ ((i : Int) < 0) := by omega
  simp [h0, h, SynchronizedBuffer.Acquire, hl]

theorem acquireAt_locked (r : BufferPool) (i : Nat) (s : SynchronizedBuffer)
    (h : r.buffers[i]? = some s) (hl : s.lock = true) :
    Get.acquireAt r (i : Int) = .blocked i r := by
  unfold Get.acquireAt
  have h0 : ¬ ((i : Int) < 0) := by omega
  simp [h0, h, SynchronizedBuffer.Acquire, hl]

theorem Put_locked (r : BufferPool) (i : Nat) (s : SynchronizedBuffer)
    (h : r.buffers[i]? = some s) (hl : s.lock = true) :
    Put r i = .ok { r with buffers := r.buffers.set i { s with lock := false } } := by
  unfold Put
  simp [h, SynchronizedBuffer.Release, hl]

/-- One uncontended cycle on a pool whose counter has not yet reached the top
of its range: `Get` returns slot `(c + 1) % N`, and after the matching `Put`
only the counter has changed. -/
theorem cycle_small (r : BufferPool) (c : Nat)
    (hunl : r.allUnlocked) (hlen : r.buffers.length = r.length)
    (hc : r.nextAllocatedIndex = (c : Int)) (hc1 : c < 2147483647)
    (hN0 : 1 ≤ r.length) (hN : r.length ≤ 2147483647) :
    ∃ r1, Get r = .acquired ((c + 1) % r.length) r1 ∧
      Put r1 ((c + 1) % r.length) = .ok { r with nextAllocatedIndex := ((c + 1 : Nat) : Int) } := by
  have hi : (c + 1) % r.length < r.buffers.length := by
    rw [hlen]; exact Nat.mod_lt _ (by omega)
  obtain ⟨s, hs⟩ : ∃ s, r.buffers[(c + 1) % r.length]? = some s :=
    ⟨r.buffers[(c + 1) % r.length], List.getElem?_eq_getElem hi⟩
  have hl : s.lock = false := hunl s (List.getElem?_mem hs)
  refine ⟨{ r with nextAllocatedIndex := ((c + 1 : Nat) : Int),
                    buffers := r.buffers.set ((c + 1) % r.length) { s with lock := true } },
    ?_, ?_⟩
  · unfold Get
    rw [selectIndex_small r c hc hc1 hN0 hN]
    simp only
    exact acquireAt_unlocked _ _ s hs hl
  · rw [Put_locked _ _ { s with lock := true } (by simp [hi]) rfl]
    have hss : ({ ({ s with lock := true } : SynchronizedBuffer) with lock := false }) = s := by
      cases s; simp_all
    simp only [List.set_set, hss, set_getElem?_same _ _ _ hs]

/-- Closed form of a run of uncontended cycles that stays below the top of the
counter's range. -/
theorem getPutCycles_small (n : Nat) (r : BufferPool) (c : Nat)
    (hunl : r.allUnlocked) (hlen : r.buffers.length = r.length)
    (hc : r.nextAllocatedIndex = (c : Int)) (hcn : c + n ≤ 2147483647)
    (hN0 : 1 ≤ r.length) (hN : r.length ≤ 2147483647) :
    getPutCycles n r
      = ⟨{ r with nextAllocatedIndex := ((c + n : Nat) : Int) },
          (List.range' (c + 1) n).map (fun k => k % r.length), .returned⟩ := by
  induction n generalizing r c with
  | zero =>
    have : { r with nextAllocatedIndex := ((c + 0 : Nat) : Int) } = r := by
      rw [Nat.add_zero, ← hc]
    rw [this]
    rfl
  | succ n ih =>
    obtain ⟨r1, hg, hp⟩ := cycle_small r c hunl hlen hc (by omega) hN0 hN
    simp only [getPutCycles, hg, hp]
    rw [ih { r with nextAllocatedIndex := ((c + 1 : Nat) : Int) } (c + 1) hunl hlen rfl
      (by omega) hN0 hN]
    simp only [List.range'_succ, List.map_cons]
    have : c + 1 + n = c + (n + 1) := by omega
    rw [this]

/-! ## What `Get` and `Put` touch -/

/-- Every outcome of `Get`: the counter is incremented in all of them, and the
only other change is the lock bit of the slot that was acquired. -/
theorem Get_cases (r : BufferPool) :
    (∃ f, Get r = .panicked f { r with nextAllocatedIndex := wrapInt32 (r.nextAllocatedIndex + 1) })
    ∨ (∃ i s, r.buffers[i]? = some s ∧ s.lock = true ∧
        Get r = .blocked i { r with nextAllocatedIndex := wrapInt32 (r.nextAllocatedIndex + 1) })
    ∨ (∃ i s, r.buffers[i]? = some s ∧ s.lock = false ∧
        Get r = .acquired i
          { r with nextAllocatedIndex := wrapInt32 (r.nextAllocatedIndex + 1),
                   buffers := r.buffers.set i { s with lock := true } }) := by
  unfold Get Get.selectIndex
  by_cases hz : int32 r.length = 0
  · left
    exact ⟨.divideByZero, by simp only [hz, if_true]⟩
  · simp only [hz, if_false]
    unfold Get.acquireAt
    by_cases hneg : Int.tmod (wrapInt32 (r.nextAllocatedIndex + 1)) (int32 r.length) < 0
    · left
      exact ⟨.indexOutOfRange, by simp only [hneg, if_true]⟩
    · simp only [hneg, if_false]
      cases hs : r.buffers[(Int.tmod (wrapInt32 (r.nextAllocatedIndex + 1)) (int32 r.length)).toNat]? with
      | none =>
        left
        exact ⟨.indexOutOfRange, rfl⟩
      | some s =>
        cases hl : s.lock with
        | true =>
          right; left
          refine ⟨_, s, hs, hl, ?_⟩
          simp only [SynchronizedBuffer.Acquire, hl, if_true]
        | false =>
          right; right
          refine ⟨_, s, hs, hl, ?_⟩
          simp [SynchronizedBuffer.Acquire, hl]

/-- Every successful `Put`: the only change is the lock bit of the slot. -/
theorem Put_ok (r p : BufferPool) (i : Nat) (h : Put r i = .ok p) :
    ∃ s, r.buffers[i]? = some s ∧ s.lock = true ∧
      p = { r with buffers := r.buffers.set i { s with lock := false } } := by
  unfold Put at h
  cases hs : r.buffers[i]? with
  | none => simp [hs] at h
  | some s =>
    cases hl : s.lock with
    | false => simp [hs, SynchronizedBuffer.Release, hl] at h
    | true =>
      refine ⟨s, rfl, hl, ?_⟩
      simp [hs, SynchronizedBuffer.Release, hl] at h
      exact h.symm

/-! ## Fresh pools -/

theorem NewBufferPool_allUnlocked (S N : Nat) : (NewBufferPool S N).allUnlocked := by
  intro s hs
  rw [NewBufferPool_buffers] at hs
  rw [List.eq_of_mem_replicate hs]
  rfl

theorem NewBufferPool_buffers_length (S N : Nat) : (NewBufferPool S N).buffers.length = N := by
  rw [NewBufferPool_buffers, List.length_replicate]

theorem NewBufferPool_eq (S N : Nat) :
    NewBufferPool S N = ⟨S, N, 0, List.replicate N (freshSlot S)⟩ := by
  have h := NewBufferPool_buffers S N
  unfold NewBufferPool at h ⊢
  simp only at h
  rw [h]

theorem getPutCycles_fresh (S N n : Nat) (hN0 : 1 ≤ N) (hN : N ≤ 2147483647)
    (hn : n ≤ 2147483647) :
    getPutCycles n (NewBufferPool S N)
      = ⟨⟨S, N, (n : Int), List.replicate N (freshSlot S)⟩,
          (List.range' 1 n).map (fun k => k % N), .returned⟩ := by
  have h := getPutCycles_small n (NewBufferPool S N) 0 (NewBufferPool_allUnlocked S N)
    (NewBufferPool_buffers_length S N) rfl (by omega) hN0 hN
  rw [h, NewBufferPool_eq]
  simp

/-! ## Shape preservation -/

theorem sameShape_refl (r : BufferPool) : r.sameShape r := ⟨rfl, rfl, rfl, rfl⟩

theorem sameShape_trans {r p q : BufferPool} (h1 : r.sameShape p) (h2 : p.sameShape q) :
    r.sameShape q :=
  ⟨h2.1.trans h1.1, h2.2.1.trans h1.2.1, h2.2.2.1.trans h1.2.2.1, h2.2.2.2.trans h1.2.2.2⟩

theorem contents_set_lock (l : List SynchronizedBuffer) (i : Nat) (s : SynchronizedBuffer)
    (b : Bool) (h : l[i]? = some s) :
    (l.set i { s with lock := b }).map (fun s => s.buffer) = l.map (fun s => s.buffer) := by
  apply List.ext_getElem?
  intro j
  simp only [List.getElem?_map]
  by_cases hij : i = j
  · subst hij
    rw [List.getElem?_set_self', h]
    simp
  · rw [List.getElem?_set_ne hij]

theorem Get_sameShape (r : BufferPool) : r.sameShape (Get r).pool := by
  rcases Get_cases r with ⟨f, h⟩ | ⟨i, s, _, _, h⟩ | ⟨i, s, hs, _, h⟩
  · rw [h]; exact ⟨rfl, rfl, rfl, rfl⟩
  · rw [h]; exact ⟨rfl, rfl, rfl, rfl⟩
  · rw [h]
    exact ⟨rfl, rfl, by simp [GetResult.pool], contents_set_lock _ _ _ _ hs⟩

theorem Put_sameShape (r p : BufferPool) (i : Nat) (h : Put r i = .ok p) : r.sameShape p := by
  obtain ⟨s, hs, _, rfl⟩ := Put_ok r p i h
  exact ⟨rfl, rfl, by simp, contents_set_lock _ _ _ _ hs⟩

theorem getPutCycles_sameShape (n : Nat) (r : BufferPool) :
    r.sameShape (getPutCycles n r).pool := by
  induction n generalizing r with
  | zero => exact sameShape_refl r
  | succ n ih =>
    have hg := Get_sameShape r
    cases hgr : Get r with
    | panicked f r1 => rw [hgr] at hg; simp only [getPutCycles, hgr]; exact hg
    | blocked i r1 => rw [hgr] at hg; simp only [getPutCycles, hgr]; exact hg
    | acquired i r1 =>
      rw [hgr] at hg
      cases hp : Put r1 i with
      | error f => simp only [getPutCycles, hgr, hp]; exact hg
      | ok r2 =>
        simp only [getPutCycles, hgr, hp]
        exact sameShape_trans hg (sameShape_trans (Put_sameShape r1 r2 i hp) (ih r2))

/-! ## Counting residues -/

theorem count_mod_block (N i a : Nat) (hi : i < N) :
    ((List.range' a N).map (fun k => k % N)).count i = 1 := by
  induction a with
  | zero =>
    have h1 : (List.range' 0 N).map (fun k => k % N) = List.range N := by
      rw [← List.range_eq_range']
      conv_rhs => rw [← List.map_id (List.range N)]
      apply List.map_congr_left
      intro k hk
      exact Nat.mod_eq_of_lt (List.mem_range.1 hk)
    rw [h1]
    exact List.count_eq_one_of_mem (List.nodup_range N) (List.mem_range.2 hi)
  | succ a ih =>
    obtain ⟨M, rfl⟩ : ∃ M, N = M + 1 := ⟨N - 1, by omega⟩
    rw [List.range'_succ] at ih
    rw [List.range'_concat]
    simp only [List.map_cons, List.map_append, List.map_nil, List.count_cons, List.count_append,
      List.count_nil, Nat.mul_one, Nat.one_mul] at ih ⊢
    have hmod : (a + 1 + M) % (M + 1) = a % (M + 1) := by
      have : a + 1 + M = a + (M + 1) := by omega
      rw [this, Nat.add_mod_right]
    rw [hmod]
    omega

theorem count_mod_blocks (N i m : Nat) (hi : i < N) :
    ((List.range' 1 (m * N)).map (fun k => k % N)).count i = m := by
  induction m with
  | zero => simp
  | succ m ih =>
    have h : (m + 1) * N = N + m * N := by rw [Nat.succ_mul, Nat.add_comm]
    rw [h, ← List.range'_append 1 (m * N) N 1, List.map_append, List.count_append, ih,
      count_mod_block N i _ hi]

/-! ## Claims about `Get`, `Put` and construction -/

/-- `Get` on a pool whose counter has not yet reached the top of its range. -/
theorem Get_small (r : BufferPool) (c : Nat)
    (hN0 : 1 ≤ r.length) (hN : r.length ≤ 2147483647) (hbl : r.buffers.length = r.length)
    (hc : r.nextAllocatedIndex = (c : Int)) (hc1 : c < 2147483647) :
    ∃ s, r.buffers[(c + 1) % r.length]? = some s ∧
      (s.lock = false →
        Get r = .acquired ((c + 1) % r.length)
          { r with nextAllocatedIndex := (c : Int) + 1,
                   buffers := r.buffers.set ((c + 1) % r.length) { s with lock := true } }) ∧
      (s.lock = true →
        Get r = .blocked ((c + 1) % r.length) { r with nextAllocatedIndex := (c : Int) + 1 }) := by
  have hi : (c + 1) % r.length < r.buffers.length := by
    rw [hbl]; exact Nat.mod_lt _ (by omega)
  refine ⟨r.buffers[(c + 1) % r.length], List.getElem?_eq_getElem hi, ?_, ?_⟩
  · intro hl
    unfold Get
    rw [selectIndex_small r c hc hc1 hN0 hN]
    simp only
    rw [acquireAt_unlocked { r with nextAllocatedIndex := ((c + 1 : Nat) : Int) } _ _
      (List.getElem?_eq_getElem hi) hl]
    simp only [Nat.cast_add, Nat.cast_one]
  · intro hl
    unfold Get
    rw [selectIndex_small r c hc hc1 hN0 hN]
    simp only
    rw [acquireAt_locked { r with nextAllocatedIndex := ((c + 1 : Nat) : Int) } _ _
      (List.getElem?_eq_getElem hi) hl]
    simp only [Nat.cast_add, Nat.cast_one]

/-- C1: on a pool with `N` slots, `1 ≤ N ≤ 2^31 - 1`, whose counter holds `c`
with `0 ≤ c < 2^31 - 1`, `Get` increments the counter to `c + 1` and targets
slot `(c + 1) % N`: it returns that slot (now locked) when the slot is free,
and waits on that very slot when it is held.  In particular, on a freshly
constructed pool the first `k - 1` uncontended cycles all return and the
`k`-th `Get` returns slot `k % N`. -/
theorem Get_selects_incremented_counter (N : Nat) (hN0 : 1 ≤ N) (hN : N ≤ 2147483647) :
    (∀ (r : BufferPool) (c : Nat), r.length = N → r.buffers.length = N →
        r.nextAllocatedIndex = (c : Int) → c < 2147483647 →
        ∃ s, r.buffers[(c + 1) % N]? = some s ∧
          (s.lock = false →
            Get r = .acquired ((c + 1) % N)
              { r with nextAllocatedIndex := (c : Int) + 1,
                       buffers := r.buffers.set ((c + 1) % N) { s with lock := true } }) ∧
          (s.lock = true →
            Get r = .blocked ((c + 1) % N) { r with nextAllocatedIndex := (c : Int) + 1 }))
    ∧ (∀ (S k : Nat), 1 ≤ k → k ≤ 2147483647 →
        (getPutCycles (k - 1) (NewBufferPool S N)).exit = .returned ∧
        ∃ p, Get (getPutCycles (k - 1) (NewBufferPool S N)).pool = .acquired (k % N) p ∧
          p.nextAllocatedIndex = (k : Int)) := by
  constructor
  · intro r c hlen hbl hc hc1
    subst hlen
    exact Get_small r c hN0 hN hbl hc hc1
  · intro S k hk1 hk
    rw [getPutCycles_fresh S N (k - 1) hN0 hN (by omega)]
    refine ⟨rfl, ?_⟩
    obtain ⟨s, hs, hfree, _⟩ := Get_small
      ⟨S, N, ((k - 1 : Nat) : Int), List.replicate N (freshSlot S)⟩ (k - 1)
      hN0 hN (by simp) rfl (by omega)
    have hl : s.lock = false := by
      have hmem := List.getElem?_mem hs
      rw [List.eq_of_mem_replicate hmem]
      rfl
    have hk' : k - 1 + 1 = k := by omega
    have hg := hfree hl
    simp only [hk'] at hg
    refine ⟨_, hg, ?_⟩
    simp only
    omega

theorem Get_selects_incremented_counter_witness :
    (getPutCycles (12 - 1) (NewBufferPool 4 10)).exit = .returned ∧
      ∃ p, Get (getPutCycles (12 - 1) (NewBufferPool 4 10)).pool = .acquired 2 p ∧
        p.nextAllocatedIndex = 12 :=
  (Get_selects_incremented_counter 10 (by decide) (by decide)).2 4 12 (by decide) (by decide)

/-- C4: on a freshly constructed pool with `N ≥ 1` slots, a run of `m * N`
sequential uncontended `Get`/`Put` cycles with `m * N < 2^31` completes, and
selects each of the `N` slots exactly `m` times. -/
theorem round_robin_spread (S N m : Nat) (hN0 : 1 ≤ N) (hm : m * N < 2147483648) :
    (getPutCycles (m * N) (NewBufferPool S N)).exit = .returned ∧
    (getPutCycles (m * N) (NewBufferPool S N)).selected.length = m * N ∧
    ∀ i, i < N → (getPutCycles (m * N) (NewBufferPool S N)).selected.count i = m := by
  rcases Nat.eq_zero_or_pos m with rfl | hpos
  · simp [getPutCycles]
  · have hN : N ≤ 2147483647 := by
      have : N ≤ m * N := Nat.le_mul_of_pos_left N hpos
      omega
    rw [getPutCycles_fresh S N (m * N) hN0 hN (by omega)]
    refine ⟨rfl, by simp, ?_⟩
    intro i hi
    exact count_mod_blocks N i m hi

theorem round_robin_spread_witness :
    (getPutCycles (10 * 10) (NewBufferPool 2048 10)).exit = .returned ∧
    (getPutCycles (10 * 10) (NewBufferPool 2048 10)).selected.length = 10 * 10 ∧
    ∀ i, i < 10 → (getPutCycles (10 * 10) (NewBufferPool 2048 10)).selected.count i = 10 :=
  round_robin_spread 2048 10 10 (by decide) (by decide)

/-- C5: `NewBufferPool S N` has exactly `N` slots, every one unlocked and
holding a buffer of exactly `S` bytes; any run of sequential `Get`/`Put`
cycles, from any pool, leaves the slot count, the configured size and the
contents of every buffer as they were; `Get` changes nothing but the counter
and the lock bit of the slot it acquires, and `Put` nothing but the lock bit of
the slot it is given; and on a fresh pool with `1 ≤ N ≤ 2^31 - 1` every run of
at most `2^31 - 1` cycles does complete. -/
theorem pool_shape_is_fixed (S N : Nat) :
    ((NewBufferPool S N).size = S ∧ (NewBufferPool S N).length = N ∧
      (NewBufferPool S N).buffers.length = N ∧
      ∀ s ∈ (NewBufferPool S N).buffers, s.lock = false ∧ s.buffer.Len = S)
    ∧ (∀ (n : Nat) (r : BufferPool), r.sameShape (getPutCycles n r).pool)
    ∧ (∀ r : BufferPool,
        (∃ f, Get r = .panicked f
            { r with nextAllocatedIndex := wrapInt32 (r.nextAllocatedIndex + 1) })
        ∨ (∃ i s, r.buffers[i]? = some s ∧ s.lock = true ∧
            Get r = .blocked i
              { r with nextAllocatedIndex := wrapInt32 (r.nextAllocatedIndex + 1) })
        ∨ (∃ i s, r.buffers[i]? = some s ∧ s.lock = false ∧
            Get r = .acquired i
              { r with nextAllocatedIndex := wrapInt32 (r.nextAllocatedIndex + 1),
                       buffers := r.buffers.set i { s with lock := true } }))
    ∧ (∀ (r p : BufferPool) (i : Nat), Put r i = .ok p →
        ∃ s, r.buffers[i]? = some s ∧ s.lock = true ∧
          p = { r with buffers := r.buffers.set i { s with lock := false } })
    ∧ (1 ≤ N → N ≤ 2147483647 → ∀ n, n ≤ 2147483647 →
        (getPutCycles n (NewBufferPool S N)).exit = .returned ∧
        (getPutCycles n (NewBufferPool S N)).pool.buffers = (NewBufferPool S N).buffers) := by
  refine ⟨⟨rfl, rfl, NewBufferPool_buffers_length S N, ?_⟩, getPutCycles_sameShape, Get_cases,
    Put_ok, ?_⟩
  · intro s hs
    rw [NewBufferPool_buffers] at hs
    rw [List.eq_of_mem_replicate hs]
    exact ⟨rfl, by simp [freshSlot, NewBuffer, make, Buffer.Len]⟩
  · intro hN0 hN n hn
    rw [getPutCycles_fresh S N n hN0 hN hn, NewBufferPool_buffers]
    exact ⟨rfl, rfl⟩

theorem pool_shape_is_fixed_witness :
    (NewBufferPool 64 4).sameShape (getPutCycles 1000 (NewBufferPool 64 4)).pool ∧
      (getPutCycles 1000 (NewBufferPool 64 4)).exit = .returned ∧
      (getPutCycles 1000 (NewBufferPool 64 4)).pool.buffers = (NewBufferPool 64 4).buffers :=
  ⟨(pool_shape_is_fixed 64 4).2.1 1000 (NewBufferPool 64 4),
    (pool_shape_is_fixed 64 4).2.2.2.2 (by decide) (by decide) 1000 (by decide)⟩

/-! ## The counter at the top of its range, and pools without slots -/

theorem selectIndex_at_top (r : BufferPool) (hc : r.nextAllocatedIndex = 2147483647)
    (hN0 : 1 ≤ r.length) (hN : r.length ≤ 2147483647) :
    Get.selectIndex r
      = ({ r with nextAllocatedIndex := -2147483648 },
          .ok (Int.tmod (-2147483648) (r.length : Int))) := by
  have h1 : wrapInt32 (r.nextAllocatedIndex + 1) = -2147483648 := by
    rw [hc]; decide
  have h2 : int32 r.length = (r.length : Int) := int32_of_small _ (by omega)
  have h3 : ¬ ((r.length : Int) = 0) := by omega
  unfold Get.selectIndex
  simp only [h1, h2, if_neg h3]

/-- C3: after `2^31 - 1` cycles on the package's pool shape (ten slots) the
counter holds `2^31 - 1`; the run so far has returned normally, and the next
`Get` wraps the counter to `-2^31`, computes the index `-8` and panics with an
index out of range. -/
theorem Get_panics_after_counter_wrap :
    (getPutCycles 2147483647 (NewBufferPool 2048 10)).exit = .returned ∧
    (getPutCycles 2147483647 (NewBufferPool 2048 10)).pool.nextAllocatedIndex = 2147483647 ∧
    Get.selectIndex (getPutCycles 2147483647 (NewBufferPool 2048 10)).pool
      = ({ (getPutCycles 2147483647 (NewBufferPool 2048 10)).pool with
            nextAllocatedIndex := -2147483648 }, .ok (-8)) ∧
    Get (getPutCycles 2147483647 (NewBufferPool 2048 10)).pool
      = .panicked .indexOutOfRange
          { (getPutCycles 2147483647 (NewBufferPool 2048 10)).pool with
            nextAllocatedIndex := -2147483648 } := by
  rw [getPutCycles_fresh 2048 10 2147483647 (by decide) (by decide) (by decide)]
  have hsel := selectIndex_at_top
    ⟨2048, 10, ((2147483647 : Nat) : Int), List.replicate 10 (freshSlot 2048)⟩ rfl
    (by decide) (by decide)
  have ht : Int.tmod (-2147483648) ((10 : Nat) : Int) = -8 := by decide
  simp only [ht] at hsel
  refine ⟨rfl, rfl, hsel, ?_⟩
  unfold Get
  rw [hsel]
  rfl

/-- A pool whose slot count converts to the `int32` zero: every `Get` panics
with a division by zero, after having incremented the counter. -/
theorem Get_divides_by_zero (r : BufferPool) (h : int32 r.length = 0) :
    Get r = .panicked .divideByZero
      { r with nextAllocatedIndex := wrapInt32 (r.nextAllocatedIndex + 1) } := by
  unfold Get Get.selectIndex
  simp only [h, if_true]

/-- C7, as the code has it: for every buffer size `S`, `NewBufferPool S 0`
returns a pool (no error is surfaced): it has no slots, slot count `0`,
configured size `S` and counter `0`; and whatever the counter of such a pool
holds, `Get` on it panics with a division by zero after incrementing the
counter. -/
theorem NewBufferPool_zero_slots (S : Nat) :
    NewBufferPool S 0 = ⟨S, 0, 0, []⟩ ∧
    ∀ c : Int, Get ⟨S, 0, c, []⟩ = .panicked .divideByZero ⟨S, 0, wrapInt32 (c + 1), []⟩ := by
  refine ⟨rfl, ?_⟩
  intro c
  have h0 : int32 0 = 0 := by decide
  exact Get_divides_by_zero ⟨S, 0, c, []⟩ h0

/-- C7 fails as stated: `NewBufferPool 64 0` returns a pool, and `Get` on that
pool divides by zero. -/
theorem NewBufferPool_zero_not_rejected :
    ∃ p : BufferPool, NewBufferPool 64 0 = p ∧ p.buffers = [] ∧
      Get p = .panicked .divideByZero ⟨64, 0, 1, []⟩ :=
  ⟨⟨64, 0, 0, []⟩, rfl, rfl, by decide⟩

/-! ## `BoundedPoolHandler`, step by step -/

theorem readFromAt_eq (p : BufferPool) (i : Nat) (s : SynchronizedBuffer) (body : Reader)
    (hs : p.buffers[i]? = some s) :
    p.readFromAt i body
      = ({ p with buffers := p.buffers.set i { s with buffer := ⟨s.buffer.buf ++ body.data⟩ } },
          body.result) := by
  unfold BufferPool.readFromAt
  simp [hs, Buffer.ReadFrom]

theorem set_modify_same {α : Type} (l : List α) (f : α → α) (i : Nat) (a : α) :
    (l.modify f i).set i a = l.set i a := by
  apply List.ext_getElem?
  intro j
  by_cases hij : i = j
  · subst hij
    simp [List.getElem?_set_self', List.getElem?_modify_eq]
  · rw [List.getElem?_set_ne hij, List.getElem?_set_ne hij, List.getElem?_modify_ne _ _ hij]

theorem deferred_eq (p : BufferPool) (i : Nat) (s : SynchronizedBuffer) (w : ResponseWriter)
    (e : Exit) (hs : p.buffers[i]? = some s) (hl : s.lock = true) :
    BoundedPoolHandler.deferred p i w e
      = ⟨{ p with buffers := p.buffers.set i ⟨⟨[]⟩, false, s.isUsed⟩ }, w, e⟩ := by
  unfold BoundedPoolHandler.deferred
  have h1 : (p.resetAt i).buffers[i]? = some { s with buffer := s.buffer.Reset } := by
    simp [BufferPool.resetAt, List.getElem?_modify_eq, hs]
  simp only [Put_locked (p.resetAt i) i _ h1 hl]
  simp only [BufferPool.resetAt, set_modify_same, Buffer.Reset]

/-- The whole of `BoundedPoolHandler` when `Get` acquires slot `i`: the counter
is the one `Get` left, slot `i` ends unlocked with an empty buffer, and the
response and exit are those of the drain. -/
theorem BoundedPoolHandler_acquired (bp : BufferPool) (w : ResponseWriter) (req : Request)
    (i : Nat) (s : SynchronizedBuffer) (c : Int)
    (hg : Get bp = .acquired i
      { bp with nextAllocatedIndex := c, buffers := bp.buffers.set i { s with lock := true } })
    (hs : bp.buffers[i]? = some s) :
    BoundedPoolHandler bp w req
      = ⟨{ bp with nextAllocatedIndex := c,
                   buffers := bp.buffers.set i ⟨⟨[]⟩, false, s.isUsed⟩ },
          specResponse w req.Body.result, req.Body.result.exit⟩ := by
  have hi : i < bp.buffers.length := by
    rcases List.getElem?_eq_some.1 hs with ⟨h, _⟩
    exact h
  unfold BoundedPoolHandler
  rw [hg]
  simp only
  rw [readFromAt_eq _ i { s with lock := true } req.Body (by simp [hi])]
  simp only [List.set_set]
  have hd : ∀ (w1 : ResponseWriter) (e : Exit),
      BoundedPoolHandler.deferred
        { bp with nextAllocatedIndex := c,
                  buffers := bp.buffers.set i
                    ⟨⟨s.buffer.buf ++ req.Body.data⟩, true, s.isUsed⟩ } i w1 e
        = ⟨{ bp with nextAllocatedIndex := c,
                     buffers := bp.buffers.set i ⟨⟨[]⟩, false, s.isUsed⟩ }, w1, e⟩ := by
    intro w1 e
    rw [deferred_eq _ i ⟨⟨s.buffer.buf ++ req.Body.data⟩, true, s.isUsed⟩ w1 e
      (by simp [hi]) rfl]
    simp only [List.set_set]
  cases hres : req.Body.result with
  | panicked => simp only [hd, specResponse, ReadResult.exit]
  | returned err =>
    cases err with
    | none => simp only [hd, specResponse, ReadResult.exit]
    | some e =>
      by_cases he : e = ReadError.EOF
      · simp [hd, specResponse, ReadResult.exit, he]
      · simp [hd, specResponse, ReadResult.exit, he, StatusInternalServerError]

theorem allUnlocked_set (l : List SynchronizedBuffer) (i : Nat) (a : SynchronizedBuffer)
    (hl : ∀ s ∈ l, s.lock = false) (ha : a.lock = false) :
    ∀ s ∈ l.set i a, s.lock = false := by
  intro s hs
  rcases List.mem_or_eq_of_mem_set hs with h | h
  · exact hl s h
  · rw [h]; exact ha

/-- Every way a call of `BoundedPoolHandler` can go. -/
theorem BoundedPoolHandler_cases (bp : BufferPool) (w : ResponseWriter) (req : Request) :
    (∃ f p1, Get bp = .panicked f p1 ∧ p1.buffers = bp.buffers ∧
        BoundedPoolHandler bp w req = ⟨p1, w, .panicked f⟩)
    ∨ (∃ i s p1, Get bp = .blocked i p1 ∧ bp.buffers[i]? = some s ∧ s.lock = true ∧
        BoundedPoolHandler bp w req = ⟨p1, w, .blocked i⟩)
    ∨ (∃ i s p1, Get bp = .acquired i p1 ∧ bp.buffers[i]? = some s ∧ s.lock = false ∧
        BoundedPoolHandler bp w req
          = ⟨{ bp with nextAllocatedIndex := p1.nextAllocatedIndex,
                       buffers := bp.buffers.set i ⟨⟨[]⟩, false, s.isUsed⟩ },
              specResponse w req.Body.result, req.Body.result.exit⟩) := by
  rcases Get_cases bp with ⟨f, h⟩ | ⟨i, s, hs, hl, h⟩ | ⟨i, s, hs, hl, h⟩
  · left
    refine ⟨f, _, h, rfl, ?_⟩
    unfold BoundedPoolHandler
    rw [h]
  · right; left
    refine ⟨i, s, _, h, hs, hl, ?_⟩
    unfold BoundedPoolHandler
    rw [h]
  · right; right
    exact ⟨i, s, _, h, hs, hl, BoundedPoolHandler_acquired bp w req i s _ h hs⟩

/-! ## Claims about the handlers -/

/-- C9: whenever `BoundedPoolHandler` has acquired a slot, then however the
drain of the body ends (nil error, end-of-stream, any other error, or a
panic), the handler leaves that slot unlocked with an empty buffer and every
other slot exactly as it was; when `Get` panics no slot is touched; and a
sequential run of any number of requests on a pool whose slots are all
unlocked serves every request without ever waiting and leaves every slot
unlocked after each of them. -/
theorem BoundedPoolHandler_releases (bp : BufferPool) (w : ResponseWriter) (req : Request) :
    (∀ i p1, Get bp = .acquired i p1 →
        ∃ s, bp.buffers[i]? = some s ∧ s.lock = false ∧
          (BoundedPoolHandler bp w req).pool.buffers
            = bp.buffers.set i ⟨⟨[]⟩, false, s.isUsed⟩ ∧
          (BoundedPoolHandler bp w req).exit = req.Body.result.exit)
    ∧ (∀ f p1, Get bp = .panicked f p1 →
        (BoundedPoolHandler bp w req).pool.buffers = bp.buffers ∧
        (BoundedPoolHandler bp w req).exit = .panicked f)
    ∧ (bp.allUnlocked → ∀ reqs : List Request,
        (serveAll bp reqs).length = reqs.length ∧
        ∀ res ∈ serveAll bp reqs, res.pool.allUnlocked ∧ ∀ i, res.exit ≠ .blocked i) := by
  refine ⟨?_, ?_, ?_⟩
  · intro i p1 hg
    rcases BoundedPoolHandler_cases bp w req with
      ⟨f, q, h, _, _⟩ | ⟨j, s, q, h, _, _, _⟩ | ⟨j, s, q, h, hs, hl, hb⟩
    · rw [h] at hg; cases hg
    · rw [h] at hg; cases hg
    · rw [h] at hg
      injection hg with hji _
      subst hji
      exact ⟨s, hs, hl, by rw [hb], by rw [hb]⟩
  · intro f p1 hg
    rcases BoundedPoolHandler_cases bp w req with
      ⟨f1, q, h, hq, hb⟩ | ⟨j, s, q, h, _, _, _⟩ | ⟨j, s, q, h, _, _, _⟩
    · rw [h] at hg
      injection hg with hf _
      subst hf
      rw [hb]
      exact ⟨hq, rfl⟩
    · rw [h] at hg; cases hg
    · rw [h] at hg; cases hg
  · intro hunl reqs
    induction reqs generalizing bp with
    | nil => exact ⟨rfl, by intro res hres; cases hres⟩
    | cons r rest ih =>
      have hstep : (BoundedPoolHandler bp [] r).pool.allUnlocked ∧
          ∀ i, (BoundedPoolHandler bp [] r).exit ≠ .blocked i := by
        rcases BoundedPoolHandler_cases bp [] r with
          ⟨f1, q, _, hq, hb⟩ | ⟨j, s, q, _, hs, hl, _⟩ | ⟨j, s, q, _, hs, hl, hb⟩
        · rw [hb]
          refine ⟨?_, by intro i h; cases h⟩
          intro s hs
          exact hunl s (by simpa [hq] using hs)
        · have := hunl s (List.getElem?_mem hs)
          rw [hl] at this
          cases this
        · rw [hb]
          refine ⟨allUnlocked_set _ _ _ hunl rfl, ?_⟩
          intro i h
          cases hr : r.Body.result <;> simp [hr, ReadResult.exit] at h
      obtain ⟨hlen, hall⟩ := ih (BoundedPoolHandler bp [] r).pool hstep.1
      refine ⟨by simp [serveAll, hlen], ?_⟩
      intro res hres
      simp only [serveAll, List.mem_cons] at hres
      rcases hres with h | h
      · rw [h]; exact hstep
      · exact hall res h

theorem BoundedPoolHandler_releases_witness :
    (∃ s, (NewBufferPool 4 2).buffers[1]? = some s ∧ s.lock = false ∧
      (BoundedPoolHandler (NewBufferPool 4 2) [] ⟨⟨[7, 7], .returned (some (.other [33]))⟩⟩).pool.buffers
        = (NewBufferPool 4 2).buffers.set 1 ⟨⟨[]⟩, false, s.isUsed⟩ ∧
      (BoundedPoolHandler (NewBufferPool 4 2) [] ⟨⟨[7, 7], .returned (some (.other [33]))⟩⟩).exit
        = (ReadResult.returned (some (.other [33]))).exit)
    ∧ (∀ res ∈ serveAll (NewBufferPool 4 2)
          [⟨⟨[7, 7], .returned (some (.other [33]))⟩⟩, ⟨⟨[1], .panicked⟩⟩, ⟨⟨[], .returned none⟩⟩],
        res.pool.allUnlocked ∧ ∀ i, res.exit ≠ .blocked i) :=
  ⟨(BoundedPoolHandler_releases (NewBufferPool 4 2) []
      ⟨⟨[7, 7], .returned (some (.other [33]))⟩⟩).1 1
      ⟨4, 2, 1, [freshSlot 4, ⟨NewBuffer (make 4), true, false⟩]⟩ (by decide),
   ((BoundedPoolHandler_releases (NewBufferPool 4 2) []
      ⟨⟨[7, 7], .returned (some (.other [33]))⟩⟩).2.2 (by decide)
      [⟨⟨[7, 7], .returned (some (.other [33]))⟩⟩, ⟨⟨[1], .panicked⟩⟩,
        ⟨⟨[], .returned none⟩⟩]).2⟩

/-- C10: for every request and every way its drain can end, each of
`BasicHandler`, `ObjectPoolHandler` and `BoundedPoolHandler` (once it has
acquired a slot) leaves the response the specification describes: the calls
`WriteHeader(500)` and `Write(err.Error())` are appended exactly when the drain
returned a non-nil error other than end-of-stream, and nothing is written
otherwise; so the three handlers write the same response. -/
theorem handlers_respond_alike (w : ResponseWriter) (req : Request) :
    (BasicHandler w req).1 = specResponse w req.Body.result
    ∧ (∀ p : SyncPool, (ObjectPoolHandler p w req).2.1 = specResponse w req.Body.result)
    ∧ (∀ (bp p1 : BufferPool) (i : Nat), Get bp = .acquired i p1 →
        (BoundedPoolHandler bp w req).w = specResponse w req.Body.result)
    ∧ (∀ err, req.Body.result = .returned (some err) → err ≠ ReadError.EOF →
        (BasicHandler w req).1
          = w ++ [.WriteHeader StatusInternalServerError, .Write err.Error])
    ∧ (¬ req.Body.result.isFailure → (BasicHandler w req).1 = w)
    ∧ ((BasicHandler w req).1 ≠ w ↔ req.Body.result.isFailure) := by
  have hbasic : (BasicHandler w req).1 = specResponse w req.Body.result := by
    unfold BasicHandler specResponse Buffer.ReadFrom
    cases hres : req.Body.result with
    | panicked => rfl
    | returned err =>
      cases err with
      | none => rfl
      | some e =>
        by_cases he : e = ReadError.EOF
        · simp [he]
        · simp [he, StatusInternalServerError]
  have hfail : ∀ err, req.Body.result = .returned (some err) → err ≠ ReadError.EOF →
      (BasicHandler w req).1
        = w ++ [.WriteHeader StatusInternalServerError, .Write err.Error] := by
    intro err hres he
    rw [hbasic, hres]
    simp [specResponse, he, StatusInternalServerError]
  have hok : ¬ req.Body.result.isFailure → (BasicHandler w req).1 = w := by
    intro hnf
    rw [hbasic]
    unfold specResponse
    cases hres : req.Body.result with
    | panicked => rfl
    | returned err =>
      cases err with
      | none => rfl
      | some e =>
        by_cases he : e = ReadError.EOF
        · simp [he]
        · exact absurd ⟨e, hres, he⟩ hnf
  refine ⟨hbasic, ?_, ?_, hfail, hok, ?_⟩
  · intro p
    unfold ObjectPoolHandler specResponse Buffer.ReadFrom
    cases hres : req.Body.result with
    | panicked => rfl
    | returned err =>
      cases err with
      | none => rfl
      | some e =>
        by_cases he : e = ReadError.EOF
        · simp [he]
        · simp [he, StatusInternalServerError]
  · intro bp p1 i hg
    rcases BoundedPoolHandler_cases bp w req with
      ⟨f, q, h, _, _⟩ | ⟨j, s, q, h, _, _, _⟩ | ⟨j, s, q, _, _, _, hb⟩
    · rw [h] at hg; cases hg
    · rw [h] at hg; cases hg
    · rw [hb]
  · constructor
    · intro hne
      by_contra hnf
      exact hne (hok hnf)
    · rintro ⟨err, hres, he⟩
      rw [hfail err hres he]
      simp

theorem handlers_respond_alike_witness :
    (BoundedPoolHandler (NewBufferPool 4 2) [] ⟨⟨[7, 7], .returned (some (.other [33]))⟩⟩).w
        = specResponse [] (.returned (some (.other [33])))
    ∧ (BasicHandler [] ⟨⟨[7, 7], .returned (some (.other [33]))⟩⟩).1
        = [] ++ [.WriteHeader StatusInternalServerError, .Write (ReadError.other [33]).Error] :=
  ⟨(handlers_respond_alike [] ⟨⟨[7, 7], .returned (some (.other [33]))⟩⟩).2.2.1
      (NewBufferPool 4 2) ⟨4, 2, 1, [freshSlot 4, ⟨NewBuffer (make 4), true, false⟩]⟩ 1
      (by decide),
   (handlers_respond_alike [] ⟨⟨[7, 7], .returned (some (.other [33]))⟩⟩).2.2.2.1
      (.other [33]) rfl (by decide)⟩

/-! ## Bytes held by the pool -/

theorem sum_map_set {α : Type} (f : α → Nat) (l : List α) (i : Nat) (a b : α)
    (h : l[i]? = some b) :
    ((l.set i a).map f).sum + f b = (l.map f).sum + f a := by
  induction l generalizing i with
  | nil => simp at h
  | cons x xs ih =>
    cases i with
    | zero =>
      simp only [List.getElem?_cons_zero, Option.some.injEq] at h
      subst h
      simp only [List.set_cons_zero, List.map_cons, List.sum_cons]
      omega
    | succ j =>
      simp only [List.getElem?_cons_succ] at h
      have := ih j h
      simp only [List.set_cons_succ, List.map_cons, List.sum_cons]
      omega

theorem totalBytes_fresh (S N : Nat) : (NewBufferPool S N).totalBytes = N * S := by
  unfold BufferPool.totalBytes
  rw [NewBufferPool_buffers]
  simp [freshSlot, NewBuffer, make, Buffer.Len]

/-- The first request on a fresh pool: `Get` acquires slot `1 % N`, and once
the body has been drained (line 108, before the deferred function runs) that
slot's buffer holds the `S` bytes it was built with followed by the body, so
the pool holds `N * S` bytes plus the length of the body. -/
theorem first_drain (S N : Nat) (body : Reader) (hN0 : 1 ≤ N) (hN : N ≤ 2147483647) :
    ∃ p1 p2, Get (NewBufferPool S N) = .acquired (1 % N) p1 ∧
      p1.readFromAt (1 % N) body = (p2, body.result) ∧
      p2.buffers.length = N ∧
      p2.buffers[1 % N]? = some ⟨⟨make S ++ body.data⟩, true, false⟩ ∧
      p2.totalBytes = N * S + body.data.length := by
  have hi : 1 % N < N := Nat.mod_lt _ (by omega)
  obtain ⟨s, hs, hfree, _⟩ := Get_small (NewBufferPool S N) 0 hN0 hN
    (NewBufferPool_buffers_length S N) rfl (by omega)
  have hlenN : (NewBufferPool S N).length = N := rfl
  simp only [Nat.zero_add, hlenN] at hs hfree
  have hsf : s = freshSlot S := by
    have hmem := List.getElem?_mem hs
    rw [NewBufferPool_buffers] at hmem
    exact List.eq_of_mem_replicate hmem
  subst hsf
  have hg := hfree rfl
  have hbl := NewBufferPool_buffers_length S N
  refine ⟨_, _, hg, readFromAt_eq _ (1 % N) { freshSlot S with lock := true } body
    (by simp [hbl, hi]), by simp [hbl], by simp [hbl, hi, freshSlot, NewBuffer], ?_⟩
  have h1 := sum_map_set (fun s => s.buffer.Len) (NewBufferPool S N).buffers (1 % N)
    ⟨⟨make S ++ body.data⟩, true, false⟩ (freshSlot S) hs
  have h2 := totalBytes_fresh S N
  unfold BufferPool.totalBytes at h2 ⊢
  simp only [List.set_set]
  have h3 : (freshSlot S).buffer.Len = S := by simp [freshSlot, NewBuffer, make, Buffer.Len]
  have h4 : (⟨⟨make S ++ body.data⟩, true, false⟩ : SynchronizedBuffer).buffer.Len
      = S + body.data.length := by simp [make, Buffer.Len]
  simp only [h2, h3, h4] at h1
  have h5 : (⟨⟨(freshSlot S).buffer.buf ++ body.data⟩, true, (freshSlot S).isUsed⟩ :
      SynchronizedBuffer) = ⟨⟨make S ++ body.data⟩, true, false⟩ := rfl
  simp only [h5]
  omega

theorem benchmarkBody_length : benchmarkBody.data.length = 1024 := by
  show (List.replicate 1024 (48 : Byte)).length = 1024
  exact List.length_replicate _ _

/-- C6: the package's pool (`S = 2048`, `N = 10`) holds `20480 = N * S` bytes
when it is built.  While `BoundedPoolHandler` serves the benchmark's request
(a 1024-byte body), after the drain and before the deferred reset the leased
slot's buffer holds `3072` bytes, more than `S`, and the pool holds `21504`
bytes, more than `N * S`. -/
theorem drain_exceeds_pool_bound :
    bp.size = 2048 ∧ bp.buffers.length = 10 ∧ bp.totalBytes = 10 * 2048 ∧
    ∃ p1 p2 s, Get bp = .acquired 1 p1 ∧
      p1.readFromAt 1 benchmarkBody = (p2, .returned none) ∧
      p2.buffers.length = 10 ∧
      p2.buffers[1]? = some s ∧ s.buffer.Len = 3072 ∧ 2048 < s.buffer.Len ∧
      p2.totalBytes = 21504 ∧ 10 * 2048 < p2.totalBytes := by
  obtain ⟨p1, p2, hg, hr, hlen, hs, htot⟩ :=
    first_drain 2048 10 benchmarkBody (by decide) (by decide)
  have h1 : (1 : Nat) % 10 = 1 := rfl
  have h2 : benchmarkBody.result = .returned none := rfl
  rw [benchmarkBody_length] at htot
  rw [h1] at hg hr hs
  rw [h2] at hr
  have hl : (⟨make 2048 ++ benchmarkBody.data⟩ : Buffer).Len = 3072 := by
    show (List.replicate 2048 (0 : Byte) ++ List.replicate 1024 (48 : Byte)).length = 3072
    rw [List.length_append, List.length_replicate, List.length_replicate]
  refine ⟨rfl, NewBufferPool_buffers_length 2048 10, totalBytes_fresh 2048 10,
    p1, p2, _, hg, hr, hlen, hs, hl, ?_, htot, ?_⟩
  · rw [hl]; decide
  · rw [htot]; decide

/-! ## Reuse of a slot after a reset -/

/-- `Get` on a pool with a single, free slot. -/
theorem Get_singleton (S c : Nat) (b : Buffer) (u : Bool) (hc : c < 2147483647) :
    Get ⟨S, 1, (c : Int), [⟨b, false, u⟩]⟩
      = .acquired 0 ⟨S, 1, (c : Int) + 1, [⟨b, true, u⟩]⟩ := by
  obtain ⟨s, hs, hfree, _⟩ := Get_small ⟨S, 1, (c : Int), [⟨b, false, u⟩]⟩ c
    (Nat.le_refl 1) (show (1 : Nat) ≤ 2147483647 by decide) rfl rfl hc
  simp only [Nat.mod_one, List.getElem?_cons_zero, Option.some.injEq] at hs hfree
  subst hs
  exact hfree rfl


/-- C8: on a pool with one slot, for every buffer size `S` and every byte
pattern `P`, the sequence `Get`, write `P`, `Reset`, `Put`, `Get` runs to its
end, both `Get`s return slot `0`, and after the second `Get` that slot is held
with an empty buffer (contents `[]`, length `0`), so no byte of `P` is left to
read. -/
theorem no_leak_after_reset (S : Nat) (P : List Byte) :
    leaseWriteResetPutLease (NewBufferPool S 1) P
        = some (0, .acquired 0 ⟨S, 1, 2, [⟨⟨[]⟩, true, false⟩]⟩)
    ∧ (⟨[]⟩ : Buffer).Len = 0 := by
  refine ⟨?_, rfl⟩
  rw [NewBufferPool_eq]
  have hg1 : Get ⟨S, 1, 0, List.replicate 1 (freshSlot S)⟩
      = .acquired 0 ⟨S, 1, 1, [⟨NewBuffer (make S), true, false⟩]⟩ :=
    Get_singleton S 0 (NewBuffer (make S)) false (by decide)
  have hg2 : Get ⟨S, 1, 1, [⟨⟨[]⟩, false, false⟩]⟩
      = .acquired 0 ⟨S, 1, 2, [⟨⟨[]⟩, true, false⟩]⟩ :=
    Get_singleton S 1 ⟨[]⟩ false (by decide)
  unfold leaseWriteResetPutLease
  rw [hg1]
  simp only [List.getElem?_cons_zero, List.set_cons_zero, BufferPool.resetAt, Buffer.Reset]
  have hp : Put ⟨S, 1, 1, [⟨⟨[]⟩, true, false⟩]⟩ 0 = .ok ⟨S, 1, 1, [⟨⟨[]⟩, false, false⟩]⟩ := rfl
  simp only [List.modify, List.modifyTailIdx, List.modifyHead]
  rw [hp]
  simp only [hg2]

/-! ## Concurrent callers: mutual exclusion -/

theorem acquireAt_cases (r : BufferPool) (i : Int) :
    (∃ f, Get.acquireAt r i = .panicked f r)
    ∨ (∃ idx s, r.buffers[idx]? = some s ∧ s.lock = true ∧ Get.acquireAt r i = .blocked idx r)
    ∨ (∃ idx s, r.buffers[idx]? = some s ∧ s.lock = false ∧
        Get.acquireAt r i
          = .acquired idx { r with buffers := r.buffers.set idx { s with lock := true } }) := by
  unfold Get.acquireAt
  by_cases hneg : i < 0
  · left
    exact ⟨.indexOutOfRange, by simp only [hneg, if_true]⟩
  · simp only [hneg, if_false]
    cases hs : r.buffers[i.toNat]? with
    | none =>
      left
      exact ⟨.indexOutOfRange, rfl⟩
    | some s =>
      cases hl : s.lock with
      | true =>
        right; left
        refine ⟨_, s, hs, hl, ?_⟩
        simp only [SynchronizedBuffer.Acquire, hl, if_true]
      | false =>
        right; right
        refine ⟨_, s, hs, hl, ?_⟩
        simp [SynchronizedBuffer.Acquire, hl]

theorem selectIndex_buffers (r : BufferPool) : (Get.selectIndex r).1.buffers = r.buffers := by
  unfold Get.selectIndex
  simp only
  split <;> rfl

/-- A step of caller `t` leaves every other caller where it was. -/
theorem step_callers_other (σ : World) (t u : Nat) (h : t ≠ u) :
    (σ.step t).callers[u]? = σ.callers[u]? := by
  unfold World.step
  split
  · rfl
  · split <;> exact List.getElem?_set_ne h
  · split
    · exact List.getElem?_set_ne h
    · rfl
    · exact List.getElem?_set_ne h
  · split <;> exact List.getElem?_set_ne h
  · rfl

theorem getElem?_set_holding {l : List Caller} {t u : Nat} {c : Caller} {i : Nat}
    (hc : ∀ j, c ≠ .holding j) (h : (l.set t c)[u]? = some (.holding i)) :
    t ≠ u ∧ l[u]? = some (.holding i) := by
  by_cases htu : t = u
  · subst htu
    by_cases hlt : t < l.length
    · rw [List.getElem?_set_self hlt] at h
      injection h with h
      exact absurd h (hc i)
    · rw [List.getElem?_eq_none (by simp; omega)] at h
      cases h
  · rw [List.getElem?_set_ne htu] at h
    exact ⟨htu, h⟩

theorem Inv_of_same_buffers (σ : World) (p : BufferPool) (t : Nat) (c : Caller)
    (hinv : σ.Inv) (hb : p.buffers = σ.pool.buffers) (hc : ∀ j, c ≠ .holding j) :
    World.Inv ⟨p, σ.callers.set t c⟩ := by
  unfold World.Inv
  constructor
  · intro u i hu
    obtain ⟨_, hu'⟩ := getElem?_set_holding hc hu
    simp only [hb]
    exact hinv.1 u i hu'
  · intro u v i hu hv
    obtain ⟨_, hu'⟩ := getElem?_set_holding hc hu
    obtain ⟨_, hv'⟩ := getElem?_set_holding hc hv
    exact hinv.2 u v i hu' hv'

theorem step_Inv (σ : World) (t : Nat) (hinv : σ.Inv) : (σ.step t).Inv := by
  unfold World.step
  cases hct : σ.callers[t]? with
  | none => exact hinv
  | some c =>
    cases c with
    | idle =>
      simp only
      have hb := selectIndex_buffers σ.pool
      rcases hsel : Get.selectIndex σ.pool with ⟨r1, res⟩
      rw [hsel] at hb
      cases res with
      | error f => exact Inv_of_same_buffers σ r1 t _ hinv hb (by intro j h; cases h)
      | ok i => exact Inv_of_same_buffers σ r1 t _ hinv hb (by intro j h; cases h)
    | dead f => exact hinv
    | selected i =>
      simp only
      rcases acquireAt_cases σ.pool i with ⟨f, h⟩ | ⟨idx, s, _, _, h⟩ | ⟨idx, s, hs, hl, h⟩
      · rw [h]
        exact Inv_of_same_buffers σ σ.pool t _ hinv rfl (by intro j h; cases h)
      · rw [h]
        exact hinv
      · rw [h]
        have hidx : idx < σ.pool.buffers.length := (List.getElem?_eq_some.1 hs).1
        have hnone : ∀ u : Nat, σ.callers[u]? ≠ some (Caller.holding idx) := by
          intro u hu
          obtain ⟨s', hs', hl'⟩ := hinv.1 u idx hu
          rw [hs] at hs'
          injection hs' with hss
          rw [← hss, hl] at hl'
          cases hl'
        have hlen : t < σ.callers.length := by
          by_contra hge
          rw [List.getElem?_eq_none (by omega)] at hct
          cases hct
        unfold World.Inv
        constructor
        · intro u j hu
          by_cases htu : t = u
          · subst htu
            simp only [List.getElem?_set_self hlen, Option.some.injEq, Caller.holding.injEq] at hu
            subst hu
            exact ⟨_, List.getElem?_set_self hidx, rfl⟩
          · simp only [List.getElem?_set_ne htu] at hu
            obtain ⟨s', hs', hl'⟩ := hinv.1 u j hu
            have hji : idx ≠ j := by
              intro hij
              subst hij
              exact hnone u hu
            exact ⟨s', by simp only [List.getElem?_set_ne hji]; exact hs', hl'⟩
        · intro u v j hu hv
          by_cases htu : t = u
          · by_cases htv : t = v
            · rw [← htu, ← htv]
            · subst htu
              simp only [List.getElem?_set_self hlen, Option.some.injEq,
                Caller.holding.injEq] at hu
              subst hu
              simp only [List.getElem?_set_ne htv] at hv
              exact absurd hv (hnone v)
          · by_cases htv : t = v
            · subst htv
              simp only [List.getElem?_set_self hlen, Option.some.injEq,
                Caller.holding.injEq] at hv
              subst hv
              simp only [List.getElem?_set_ne htu] at hu
              exact absurd hu (hnone u)
            · simp only [List.getElem?_set_ne htu] at hu
              simp only [List.getElem?_set_ne htv] at hv
              exact hinv.2 u v j hu hv
    | holding idx =>
      simp only
      cases hp : Put σ.pool idx with
      | error f =>
        exact Inv_of_same_buffers σ σ.pool t _ hinv rfl (by intro j h; cases h)
      | ok r1 =>
        obtain ⟨s, hs, hl, rfl⟩ := Put_ok σ.pool r1 idx hp
        unfold World.Inv
        simp only
        constructor
        · intro u j hu
          obtain ⟨htu, hu'⟩ := getElem?_set_holding (c := Caller.idle)
            (by intro j h; cases h) hu
          obtain ⟨s', hs', hl'⟩ := hinv.1 u j hu'
          have hji : idx ≠ j := by
            intro hij
            subst hij
            exact htu (hinv.2 t u idx hct hu')
          exact ⟨s', by simp only [List.getElem?_set_ne hji]; exact hs', hl'⟩
        · intro u v j hu hv
          obtain ⟨_, hu'⟩ := getElem?_set_holding (c := Caller.idle)
            (by intro j h; cases h) hu
          obtain ⟨_, hv'⟩ := getElem?_set_holding (c := Caller.idle)
            (by intro j h; cases h) hv
          exact hinv.2 u v j hu' hv'

theorem run_Inv (σ : World) (sched : List Nat) (hinv : σ.Inv) : (σ.run sched).Inv := by
  induction sched generalizing σ with
  | nil => exact hinv
  | cons t rest ih => exact ih (σ.step t) (step_Inv σ t hinv)

theorem start_Inv (r : BufferPool) (n : Nat) : (World.start r n).Inv := by
  unfold World.Inv
  constructor
  · intro t i h
    simp [World.start, List.getElem?_replicate] at h
  · intro t u i h
    simp [World.start, List.getElem?_replicate] at h

theorem run_callers_other (σ : World) (sched : List Nat) (u : Nat) (h : u ∉ sched) :
    (σ.run sched).callers[u]? = σ.callers[u]? := by
  induction sched generalizing σ with
  | nil => rfl
  | cons t rest ih =>
    have htu : t ≠ u := by
      intro e
      exact h (by simp [e])
    have hrest : u ∉ rest := by
      intro e
      exact h (by simp [e])
    show ((σ.step t).run rest).callers[u]? = σ.callers[u]?
    rw [ih (σ.step t) hrest, step_callers_other σ t u htu]

/-- Two consecutive steps of an idle caller are one call of `Get`: when `Get`
acquires slot `i` on the current pool, the caller ends up holding `i` on the
pool `Get` returns. -/
theorem step_step_eq_Get (σ : World) (t i : Nat) (p : BufferPool)
    (ht : σ.callers[t]? = some Caller.idle) (hg : Get σ.pool = .acquired i p) :
    (σ.step t).step t = ⟨p, σ.callers.set t (Caller.holding i)⟩ := by
  have hlen : t < σ.callers.length := by
    by_contra hge
    rw [List.getElem?_eq_none (by omega)] at ht
    cases ht
  unfold Get at hg
  rcases hsel : Get.selectIndex σ.pool with ⟨r1, res⟩
  rw [hsel] at hg
  cases res with
  | error f => cases hg
  | ok k =>
    simp only at hg
    have h1 : σ.step t = ⟨r1, σ.callers.set t (Caller.selected k)⟩ := by
      unfold World.step
      rw [ht]
      simp only [hsel]
    rw [h1]
    unfold World.step
    simp only [List.getElem?_set_self hlen, hg, List.set_set]

/-- C2: in every state reached from `n` callers outside the pool by any
interleaving of their atomic steps (the increment-and-remainder of `Get`, the
`Lock` of `Get`, the `Unlock` of `Put`), no two callers hold the same slot; and
while the holder `u` of slot `i` has not taken its next step (its `Put`), no
other caller comes to hold slot `i`, whatever steps the others take. -/
theorem mutual_exclusion (r : BufferPool) (n : Nat) (sched : List Nat) :
    (∀ t u i : Nat,
        ((World.start r n).run sched).callers[t]? = some (Caller.holding i) →
        ((World.start r n).run sched).callers[u]? = some (Caller.holding i) → t = u)
    ∧ (∀ u i : Nat,
        ((World.start r n).run sched).callers[u]? = some (Caller.holding i) →
        ∀ more : List Nat, u ∉ more → ∀ t : Nat, t ≠ u →
          (((World.start r n).run sched).run more).callers[t]? ≠ some (Caller.holding i)) := by
  have hinv := run_Inv (World.start r n) sched (start_Inv r n)
  refine ⟨hinv.2, ?_⟩
  intro u i hu more hmore t htu ht
  have hinv2 := run_Inv _ more hinv
  have hu2 : (((World.start r n).run sched).run more).callers[u]? = some (Caller.holding i) := by
    rw [run_callers_other _ more u hmore]
    exact hu
  exact htu (hinv2.2 t u i ht hu2)

theorem mutual_exclusion_witness :
    ((World.start (NewBufferPool 1 1) 2).run [0, 0, 1, 1]).callers
        = [Caller.holding 0, Caller.selected 0]
    ∧ (((World.start (NewBufferPool 1 1) 2).run [0, 0, 1, 1]).run [1, 1, 1]).callers[1]?
        ≠ some (Caller.holding 0)
    ∧ (((World.start (NewBufferPool 1 1) 2).run [0, 0, 1, 1]).run [0, 1]).callers
        = [Caller.idle, Caller.holding 0] :=
  ⟨by decide,
   (mutual_exclusion (NewBufferPool 1 1) 2 [0, 0, 1, 1]).2 0 0 (by decide) [1, 1, 1]
     (by decide) 1 (by decide),
   by decide⟩

end Server
